import Mathlib

/-
Verification development for the `BarChart2` widget
(src/src/widgets/barchart2.rs).

The widget is embedded shallowly:

* `Config` mirrors the `BarChart2` struct, `Config.add_data` and the
  fluent setters mirror the builder methods.
* `render` mirrors `Widget::render`: it emits the list of write
  operations the widget performs on the output buffer, in source order.
  `applyWrites` replays such a trace on a `Buffer` model.
* Machine arithmetic that can overflow is modelled with explicit
  wrapping (`wrap16` for `u16`, `wrap64` for `u64`), matching the
  two's-complement wrapping of a Rust release build; a debug build
  panics at exactly the same inputs.  Divisions, coordinates and `usize`
  counters that provably stay in range are modelled on plain `Nat`.
* `Buffer`, `Block`, `Style` and the glyph set are external to the two
  source files of this repository; they are modelled from the spec and
  marked as such.
-/

set_option maxRecDepth 4000

namespace BarChart2

/-- Wrapping `u16` arithmetic (Rust release profile). -/
def wrap16 (n : Nat) : Nat := n % 65536

/-- Wrapping `u64` arithmetic (Rust release profile). -/
def wrap64 (n : Nat) : Nat := n % 18446744073709551616

/-- Modelled from the spec: a text attribute is "an opaque bag of
foreground/background/decoration settings"; two optional channels are
enough to observe patching behaviour.  An unset channel of the patch
leaves the cell's channel unchanged. -/
structure Style where
  fg : Option Nat
  bg : Option Nat
  deriving DecidableEq

/-- The all-unset attribute (`Style::default()`). -/
def Style.default : Style := ⟨none, none⟩

/-- Modelled from the spec: applying an attribute to a cell keeps the
channels the new attribute leaves unset. -/
def Style.patch (c o : Style) : Style :=
  ⟨match o.fg with | some v => some v | none => c.fg,
   match o.bg with | some v => some v | none => c.bg⟩

/-- `layout::Rect`: a rectangle of character cells. -/
structure Rect where
  x : Nat
  y : Nat
  width : Nat
  height : Nat
  deriving DecidableEq

def Rect.left (r : Rect) : Nat := r.x

def Rect.right (r : Rect) : Nat := r.x + r.width

def Rect.top (r : Rect) : Nat := r.y

def Rect.bottom (r : Rect) : Nat := r.y + r.height

def Rect.default : Rect := ⟨0, 0, 0, 0⟩

/-- The point `(x, y)` lies inside the rectangle. -/
def Rect.containsXY (r : Rect) (x y : Nat) : Prop :=
  r.x ≤ x ∧ x < r.x + r.width ∧ r.y ≤ y ∧ y < r.y + r.height

instance (r : Rect) (x y : Nat) : Decidable (r.containsXY x y) := by
  unfold Rect.containsXY
  infer_instance

/-- `layout::Size`. -/
structure Size where
  width : Nat
  height : Nat
  deriving DecidableEq

/-- Modelled from the spec: one cell of the output grid holds "one
display glyph and one attribute value". -/
structure Cell where
  symbol : String
  style : Style
  deriving DecidableEq

def Cell.default : Cell := ⟨(" "), Style.default⟩

/-- Modelled from the spec: the output grid is "an addressable 2D grid
of character cells" supporting "point writes and fixed-width string
writes with clipping at grid edges". -/
structure Buffer where
  area : Rect
  content : List Cell
  deriving DecidableEq

def Buffer.indexOf (buf : Buffer) (x y : Nat) : Nat :=
  (y - buf.area.y) * buf.area.width + (x - buf.area.x)

/-- Point update of one cell, clipped at the grid edges. -/
def Buffer.modifyCell (buf : Buffer) (x y : Nat) (f : Cell → Cell) : Buffer :=
  if buf.area.containsXY x y then
    { buf with
      content := buf.content.set (buf.indexOf x y)
        (f (buf.content.getD (buf.indexOf x y) Cell.default)) }
  else buf

/-- The coordinates of a rectangle, row by row (the iteration order of
`Buffer::set_style`). -/
def coordsIn (r : Rect) : List (Nat × Nat) :=
  List.flatten ((List.range r.height).map (fun dy =>
    (List.range r.width).map (fun dx => (r.x + dx, r.y + dy))))

/-- Modelled from the spec: the optional bordered wrapper "supplies an
inner area (the drawable region after border/title reservation) and
paints its own border/title independently", and answers the
size-negotiation protocol.  All three behaviours are external to this
repository, so they stay abstract. -/
structure Block where
  inner : Rect → Rect
  size_hint : Rect → Size
  paint : Rect → Buffer → Buffer

/-- `symbols::bar::Set`: the nine glyphs for 0/8 … 8/8 fill. -/
structure BarSet where
  full : String
  seven_eighths : String
  three_quarters : String
  five_eighths : String
  half : String
  three_eighths : String
  one_quarter : String
  one_eighth : String
  empty : String
  deriving DecidableEq

/-- Modelled from the spec: the default "block elements family with
ascending solidity" (`symbols::bar::NINE_LEVELS`). -/
def NINE_LEVELS : BarSet :=
  ⟨("█"), ("▇"), ("▆"), ("▅"), ("▄"), ("▃"), ("▂"), ("▁"), (" ")⟩

/-- One write operation performed on the output buffer.  `cell` is a
point write (`get_mut` + `set_symbol` + `set_style`), `str` is
`set_string`, `strn` is `set_stringn` with a width limit, `blockPaint`
is the wrapper painting its own border. -/
inductive WriteOp where
  | setStyle (r : Rect) (s : Style)
  | cell (x y : Nat) (sym : String) (st : Style)
  | str (x y : Nat) (text : String) (st : Style)
  | strn (x y : Nat) (text : String) (maxW : Nat) (st : Style)
  | blockPaint (f : Buffer → Buffer)

/-- The `BarChart2` struct: configuration accumulated by the builder. -/
structure Config where
  block : Option Block
  bar_width : Nat
  bar_gap : Nat
  group_gap : Nat
  bar_set : BarSet
  bar_styles : List Style
  value_styles : List Style
  label_style : Style
  style : Style
  data : List (List Nat)
  labels : List String
  max : Option Nat
  format : Nat → String

/-- `format_value`: default decimal formatter. -/
def format_value (v : Nat) : String := toString v

/-- `Default for BarChart2`. -/
def Config.default : Config :=
  { block := none
    max := none
    data := []
    labels := []
    bar_styles := []
    bar_width := 1
    bar_gap := 1
    group_gap := 1
    bar_set := NINE_LEVELS
    value_styles := []
    label_style := Style.default
    style := Style.default
    format := format_value }

/-- `iter_mut().zip(values)` followed by `push`: the common prefix of the
groups each receive one appended value, trailing groups are unchanged. -/
def zipPush : List (List Nat) → List Nat → List (List Nat)
  | [], _ => []
  | gs, [] => gs
  | g :: gs, v :: vs => (g ++ [v]) :: zipPush gs vs

/-- `BarChart2::add_data`. -/
def Config.add_data (cfg : Config) (vals : List Nat) : Config :=
  if cfg.data = [] then { cfg with data := vals.map (fun v => [v]) }
  else { cfg with data := zipPush cfg.data vals }

/-- `BarChart2::block`. -/
def Config.block' (cfg : Config) (b : Block) : Config := { cfg with block := some b }

/-- `BarChart2::value_format`. -/
def Config.value_format (cfg : Config) (f : Nat → String) : Config := { cfg with format := f }

/-- `BarChart2::max`. -/
def Config.max' (cfg : Config) (m : Nat) : Config := { cfg with max := some m }

/-- `BarChart2::bar_styles`. -/
def Config.bar_styles' (cfg : Config) (ss : List Style) : Config := { cfg with bar_styles := ss }

/-- `BarChart2::bar_width`. -/
def Config.bar_width' (cfg : Config) (w : Nat) : Config := { cfg with bar_width := w }

/-- `BarChart2::bar_gap`. -/
def Config.bar_gap' (cfg : Config) (g : Nat) : Config := { cfg with bar_gap := g }

/-- `BarChart2::group_gap`. -/
def Config.group_gap' (cfg : Config) (g : Nat) : Config := { cfg with group_gap := g }

/-- `BarChart2::bar_set`. -/
def Config.bar_set' (cfg : Config) (s : BarSet) : Config := { cfg with bar_set := s }

/-- `BarChart2::value_styles`. -/
def Config.value_styles' (cfg : Config) (ss : List Style) : Config := { cfg with value_styles := ss }

/-- `BarChart2::label_style`. -/
def Config.label_style' (cfg : Config) (s : Style) : Config := { cfg with label_style := s }

/-- `BarChart2::style`. -/
def Config.style' (cfg : Config) (s : Style) : Config := { cfg with style := s }

/-- `BarChart2::labels`. -/
def Config.labels' (cfg : Config) (ls : List String) : Config := { cfg with labels := ls }

/-- The glyph chosen for a bar's current remaining eighths-height
(the `match d` on lines 208–218). -/
def levelSymbol (set : BarSet) (d : Nat) : String :=
  match d with
  | 0 => set.empty
  | 1 => set.one_eighth
  | 2 => set.one_quarter
  | 3 => set.three_eighths
  | 4 => set.half
  | 5 => set.five_eighths
  | 6 => set.three_quarters
  | 7 => set.seven_eighths
  | _ => set.full

/-- The per-row decrement of a bar's remaining eighths-height
(`if *d > 8 { *d -= 8 } else { *d = 0 }`). -/
def nextLevel (d : Nat) : Nat := if d > 8 then d - 8 else 0

/-- One application of the per-row decrement to the whole grouped data. -/
def stepLevels (data : List (List Nat)) : List (List Nat) :=
  data.map (List.map nextLevel)

/-- The glyph column a single bar receives over `rows` rows, bottom row
first, exactly as produced by the paint loop for that bar. -/
def barGlyphs (set : BarSet) (e : Nat) : Nat → List String
  | 0 => []
  | r + 1 => levelSymbol set e :: barGlyphs set (nextLevel e) r

/-- Height scaling (line 197):
`v * u64::from(chart_area.height - 1) * 8 / max(max, 1)` in `u64`. -/
def scaleValue (v h m : Nat) : Nat :=
  wrap64 (wrap64 (v * (h - 1)) * 8) / Nat.max m 1

/-- `iter().max().unwrap_or_default()` on a list. -/
def listMax : List Nat → Nat
  | [] => 0
  | x :: xs => Nat.max x (listMax xs)

/-- Max resolution (lines 174–180): the fixed maximum if set, otherwise
the maximum over all groups and series, 0 for empty data. -/
def resolvedMax (cfg : Config) : Nat :=
  match cfg.max with
  | some m => m
  | none => listMax (cfg.data.map listMax)

/-- `bars_per_column` (line 182): the length of the first group. -/
def seriesCount (cfg : Config) : Nat := (cfg.data.headD []).length

/-- Numerator of the fit computation (line 185), in wrapping `u16`:
`chart_area.width + self.group_gap + self.bar_gap`. -/
def fitNumerator (w gg bg : Nat) : Nat := wrap16 (wrap16 (w + gg) + bg)

/-- Divisor of the fit computation (line 186), in wrapping `u16`:
`(self.bar_width + self.bar_gap) * bars_per_column as u16 + self.group_gap`. -/
def perGroupWidth (bw bg gg s : Nat) : Nat :=
  wrap16 (wrap16 (wrap16 (bw + bg) * wrap16 s) + gg)

/-- `max_index` (lines 184–189): number of groups that will be shown. -/
def visibleGroupCount (w bw bg gg s n : Nat) : Nat :=
  Nat.min (fitNumerator w gg bg / perGroupWidth bw bg gg s) n

/-- The chart area: the wrapper's inner area if wrapped, else the target
area (lines 161–168). -/
def chartArea (cfg : Config) (area : Rect) : Rect :=
  match cfg.block with
  | some b => b.inner area
  | none => area

/-- `max_index` applied to a configuration and chart area. -/
def maxIndex (cfg : Config) (ca : Rect) : Nat :=
  visibleGroupCount ca.width cfg.bar_width cfg.bar_gap cfg.group_gap
    (seriesCount cfg) cfg.data.length

/-- The scaled working data (lines 191–200): the shown groups with every
value converted to eighths-of-cell units. -/
def shownData (cfg : Config) (ca : Rect) : List (List Nat) :=
  (cfg.data.take (maxIndex cfg ca)).map
    (fun bars => bars.map (fun v => scaleValue v ca.height (resolvedMax cfg)))

/-- `styles.get(data_type).unwrap_or(&default)`. -/
def styleAt (ss : List Style) (t : Nat) : Style := ss.getD t Style.default

/-- Paint of one group's bars in one row (inner loop, lines 207–240):
`i` is the running global bar counter, `t` the series index within the
group, `xoff` the accumulated group-gap offset. -/
def groupGo (cfg : Config) (ca : Rect) (j : Nat) :
    List Nat → Nat → Nat → Nat → List WriteOp
  | [], _, _, _ => []
  | lvl :: rest, i, t, xoff =>
      (List.range cfg.bar_width).map (fun x =>
        WriteOp.cell (ca.left + i * (cfg.bar_width + cfg.bar_gap) + x + xoff)
          (ca.top + j) (levelSymbol cfg.bar_set lvl) (styleAt cfg.bar_styles t))
      ++ groupGo cfg ca j rest (i + 1) (t + 1) xoff

/-- Paint of one row across all groups (lines 206–242): after each group
the group gap is added to the x offset. -/
def rowGo (cfg : Config) (ca : Rect) (j : Nat) :
    List (List Nat) → Nat → Nat → List WriteOp
  | [], _, _ => []
  | d :: rest, i, xoff =>
      groupGo cfg ca j d i 0 xoff
      ++ rowGo cfg ca j rest (i + d.length) (xoff + cfg.group_gap)

/-- The row loop (line 203): `j` runs from `height - 2` down to `0`, the
working data is decremented by one row after each pass. -/
def barRows (cfg : Config) (ca : Rect) : List (List Nat) → Nat → List WriteOp
  | _, 0 => []
  | data, r + 1 =>
      rowGo cfg ca r data 0 0 ++ barRows cfg ca (stepLevels data) r

/-- All bar-glyph writes of one render. -/
def barOps (cfg : Config) (ca : Rect) (data : List (List Nat)) : List WriteOp :=
  barRows cfg ca data (ca.height - 1)

/-- Value labels of one group (lines 250–266), the group's values given
reversed (`enumerate().rev()`); the series index of the head is the
length of the remaining reversed list. -/
def valueSeriesRev (cfg : Config) (ca : Rect) :
    List Nat → Nat → Nat → List WriteOp
  | [], _, _ => []
  | v :: rest, i, xoff =>
      (if v = 0 then [] else
        [WriteOp.str
          (ca.left + (i - 1) * (cfg.bar_width + cfg.bar_gap) + xoff
            + (cfg.bar_width - (cfg.format v).length) / 2)
          (ca.bottom - 2 - rest.length)
          (cfg.format v) (styleAt cfg.value_styles rest.length)])
      ++ valueSeriesRev cfg ca rest (i - 1) xoff

/-- Value labels across groups (lines 248–267), the shown groups given
reversed (`take(max_index).rev()`); `x_offset` is decremented before
each group, `i` counts bars down. -/
def valueGroups (cfg : Config) (ca : Rect) :
    List (List Nat) → Nat → Nat → List WriteOp
  | [], _, _ => []
  | d :: rest, i, xoff =>
      valueSeriesRev cfg ca d.reverse i (xoff - cfg.group_gap)
      ++ valueGroups cfg ca rest (i - d.length) (xoff - cfg.group_gap)

/-- All value-label writes of one render (lines 245–267). -/
def valueOps (cfg : Config) (ca : Rect) (m s : Nat) : List WriteOp :=
  valueGroups cfg ca (cfg.data.take m).reverse (m * s) (cfg.group_gap * m)

/-- All category-label writes of one render (lines 269–282). -/
def labelOps (cfg : Config) (ca : Rect) (m s : Nat) : List WriteOp :=
  let lmw := s * cfg.bar_width + (s - 1) * cfg.bar_gap
  let tl := cfg.labels.take m
  (List.range tl.length).map (fun i =>
    WriteOp.strn
      (ca.left + i * s * (cfg.bar_width + cfg.bar_gap) + cfg.group_gap * i
        + (lmw - (tl.getD i ("")).length) / 2)
      (ca.bottom - 1) (tl.getD i ("")) lmw cfg.label_style)

/-- The writes performed before the early-exit check (lines 159–168):
the whole-area style application, then the wrapper's own painting. -/
def preOps (cfg : Config) (area : Rect) : List WriteOp :=
  WriteOp.setStyle area cfg.style ::
    (match cfg.block with
     | some b => [WriteOp.blockPaint (b.paint area)]
     | none => [])

/-- `Widget::render` for `BarChart2` as its trace of buffer writes, in
source order. -/
def render (cfg : Config) (area : Rect) : List WriteOp :=
  if (chartArea cfg area).height < 2 ∨ cfg.data = [] then preOps cfg area
  else
    preOps cfg area
    ++ barOps cfg (chartArea cfg area) (shownData cfg (chartArea cfg area))
    ++ valueOps cfg (chartArea cfg area) (maxIndex cfg (chartArea cfg area)) (seriesCount cfg)
    ++ labelOps cfg (chartArea cfg area) (maxIndex cfg (chartArea cfg area)) (seriesCount cfg)

/-- `SizeHint for BarChart2` (lines 286–298). -/
def size_hint (cfg : Config) (area : Rect) : Size :=
  match cfg.block with
  | some b =>
      let ba := b.size_hint Rect.default
      ⟨Nat.max area.width ba.width, Nat.max area.height (ba.height + 1)⟩
  | none => ⟨area.width, area.height⟩

/-- Replay one write operation on a buffer.  Cell writes replace the
glyph and patch the attribute; string writes place one glyph per
character, clipped at the grid edges. -/
def applyWrite (buf : Buffer) (op : WriteOp) : Buffer :=
  match op with
  | WriteOp.setStyle r s =>
      (coordsIn r).foldl (fun b p =>
        b.modifyCell p.1 p.2 (fun c => { c with style := c.style.patch s })) buf
  | WriteOp.cell x y sym st =>
      buf.modifyCell x y (fun c => { symbol := sym, style := c.style.patch st })
  | WriteOp.str x y text st =>
      (List.range text.length).foldl (fun b k =>
        b.modifyCell (x + k) y (fun c =>
          { symbol := String.singleton (text.toList.getD k (' ')),
            style := c.style.patch st })) buf
  | WriteOp.strn x y text maxW st =>
      (List.range (Nat.min text.length maxW)).foldl (fun b k =>
        b.modifyCell (x + k) y (fun c =>
          { symbol := String.singleton (text.toList.getD k (' ')),
            style := c.style.patch st })) buf
  | WriteOp.blockPaint f => f buf

/-- Replay a trace of writes on a buffer. -/
def applyWrites (ops : List WriteOp) (buf : Buffer) : Buffer :=
  ops.foldl applyWrite buf

/-- The grid cells a write operation touches (the wrapper's own painting
is not a write of the chart). -/
def opCells (op : WriteOp) : List (Nat × Nat) :=
  match op with
  | WriteOp.setStyle r _ => coordsIn r
  | WriteOp.cell x y _ _ => [(x, y)]
  | WriteOp.str x y text _ => (List.range text.length).map (fun k => (x + k, y))
  | WriteOp.strn x y text maxW _ =>
      (List.range (Nat.min text.length maxW)).map (fun k => (x + k, y))
  | WriteOp.blockPaint _ => []

/-- All grid cells a trace touches. -/
def allCells (ops : List WriteOp) : List (Nat × Nat) :=
  List.flatten (ops.map opCells)

/-! ### Arithmetic helper lemmas -/

/-- Removing the `u16` wraps from the fit numerator when it is in range. -/
theorem fitNumerator_eq (w gg bg : Nat) (h : w + gg + bg < 65536) :
    fitNumerator w gg bg = w + gg + bg := by
  unfold fitNumerator wrap16
  omega

/-- Removing the `u16` wraps from the per-group width when it is in
range and at least one series exists. -/
theorem perGroupWidth_eq (bw bg gg s : Nat) (hs : 1 ≤ s)
    (h : (bw + bg) * s + gg < 65536) :
    perGroupWidth bw bg gg s = (bw + bg) * s + gg := by
  unfold perGroupWidth wrap16
  rcases Nat.eq_zero_or_pos (bw + bg) with h0 | hpos
  · rw [h0]
    simp
    omega
  · have hbw : bw + bg < 65536 := by
      have : (bw + bg) * 1 ≤ (bw + bg) * s := Nat.mul_le_mul_left _ hs
      omega
    have hslt : s < 65536 := by
      have : 1 * s ≤ (bw + bg) * s := Nat.mul_le_mul_right _ hpos
      omega
    rw [Nat.mod_eq_of_lt hbw, Nat.mod_eq_of_lt hslt]
    have hprod : (bw + bg) * s < 65536 := by omega
    rw [Nat.mod_eq_of_lt hprod, Nat.mod_eq_of_lt (by omega)]

/-- Integer division does not grow when the numerator and the divisor
grow by amounts `δ ≤ ε`. -/
theorem divAddLe (A B δ ε : Nat) (hB : 0 < B) (hδε : δ ≤ ε) :
    (A + δ) / (B + ε) ≤ A / B := by
  have hlt : A + δ < (A / B + 1) * (B + ε) := by
    have hexp : (A / B + 1) * (B + ε) = B * (A / B) + (A / B) * ε + B + ε := by
      ring
    have hdm : B * (A / B) + A % B = A := Nat.div_add_mod A B
    have hmod : A % B < B := Nat.mod_lt _ hB
    omega
  have := (Nat.div_lt_iff_lt_mul (by omega : 0 < B + ε)).mpr hlt
  omega

/-! ### C1: height scaling -/

/-- C1 counterexample: the claim promises that a value equal to the
resolved maximum scales to exactly `(h - 1) * 8`, for every value.  At
`v = m = 2^63` and chart height `3` the `u64` product `v * (h-1) * 8`
wraps (a debug build panics), and the computed eighths-height is `0`,
not `16`. -/
theorem scale_overflow_cex :
    scaleValue (2 ^ 63) 3 (2 ^ 63) ≠ (3 - 1) * 8 := by decide

/-- C1 amended: whenever the `u64` product `v * (h - 1) * 8` does not
overflow, the eighths-height computed during layout resolution equals
`v * (h - 1) * 8 / max(m, 1)` with truncating integer division; in
particular `v = 0` scales to `0` and `v = m` (with `m > 0`) scales to
exactly `(h - 1) * 8`. -/
theorem scale_exact (v h m : Nat) (hh : 2 ≤ h)
    (hov : v * (h - 1) * 8 < 18446744073709551616) :
    scaleValue v h m = v * (h - 1) * 8 / Nat.max m 1
    ∧ (v = 0 → scaleValue v h m = 0)
    ∧ (v = m → 1 ≤ m → scaleValue v h m = (h - 1) * 8) := by
  have hv1 : v * (h - 1) < 18446744073709551616 := by
    have : v * (h - 1) ≤ v * (h - 1) * 8 := by
      have := Nat.mul_le_mul_left (v * (h - 1)) (by omega : 1 ≤ 8)
      omega
    omega
  have hmain : scaleValue v h m = v * (h - 1) * 8 / Nat.max m 1 := by
    unfold scaleValue wrap64
    rw [Nat.mod_eq_of_lt hv1, Nat.mod_eq_of_lt hov]
  refine ⟨hmain, ?_, ?_⟩
  · intro h0
    rw [hmain, h0]
    simp
  · intro hvm hm
    rw [hmain, hvm]
    have hmax : Nat.max m 1 = m := Nat.max_eq_left hm
    rw [hmax]
    have : m * (h - 1) * 8 = (h - 1) * 8 * m := by ring
    rw [this]
    exact Nat.mul_div_cancel _ (by omega)

/-- C1 witness: the amended scaling facts evaluated at `v = 5`,
`h = 4`, `m = 10`. -/
theorem scale_exact_witness :
    (2 ≤ 4 ∧ 5 * (4 - 1) * 8 < 18446744073709551616)
    ∧ (scaleValue 5 4 10 = 5 * (4 - 1) * 8 / Nat.max 10 1
       ∧ (5 = 0 → scaleValue 5 4 10 = 0)
       ∧ (5 = 10 → 1 ≤ 10 → scaleValue 5 4 10 = (4 - 1) * 8)) :=
  ⟨⟨by decide, by decide⟩, scale_exact 5 4 10 (by decide) (by decide)⟩

/-! ### C6: division by zero in the fit computation -/

/-- C6: with `bar_width = bar_gap = group_gap = 0` and non-empty data on
an area of height ≥ 2, the render reaches the visible-group-count
division (the early-exit guard is false) and its divisor
`(bar_width + bar_gap) * bars_per_column + group_gap` is `0`; the Rust
division on line 184–187 therefore panics with a division by zero,
contradicting the no-panic contract. -/
theorem fit_divisor_zero :
    (¬ ((chartArea { Config.default with
          bar_width := 0, bar_gap := 0, group_gap := 0,
          data := [[1]] } ⟨0, 0, 5, 5⟩).height < 2
        ∨ ({ Config.default with
          bar_width := 0, bar_gap := 0, group_gap := 0,
          data := [[1]] } : Config).data = []))
    ∧ perGroupWidth 0 0 0 (seriesCount { Config.default with
          bar_width := 0, bar_gap := 0, group_gap := 0,
          data := [[1]] }) = 0 := by
  constructor
  · intro h
    rcases h with h | h
    · simp [chartArea, Config.default] at h
    · simp [Config.default] at h
  · decide

/-! ### C2: visible-group count -/

/-- C2 counterexample: the claim states the pure formula for every
configuration, but the fit arithmetic runs in `u16`.  With
`bar_width = 65535`, `bar_gap = 1` the divisor wraps to `1` (a debug
build panics), one group is rendered, while the claimed formula yields
`min(102 / 65537, 1) = 0`. -/
theorem group_count_cex :
    (shownData { Config.default with bar_width := 65535, data := [[1]] }
        ⟨0, 0, 100, 5⟩).length = 1
    ∧ Nat.min ((100 + 1 + 1) / ((65535 + 1) * 1 + 1)) 1 = 0 := by decide

/-- C2 amended: whenever the fit numerator and divisor stay in `u16`
range and the divisor is nonzero (otherwise the code panics), the number
of groups rendered equals
`min((areaWidth + groupGap + barGap) / ((barWidth + barGap) * seriesPerGroup + groupGap), numberOfGroups)`
with `seriesPerGroup` the length of the first group, and every rendered
group is taken whole (scaled bar by bar), never clipped. -/
theorem group_count_eq (cfg : Config) (ca : Rect)
    (hd : cfg.data ≠ [])
    (hs : 1 ≤ seriesCount cfg)
    (hnum : ca.width + cfg.group_gap + cfg.bar_gap < 65536)
    (hper : (cfg.bar_width + cfg.bar_gap) * seriesCount cfg + cfg.group_gap < 65536)
    (hper0 : 0 < (cfg.bar_width + cfg.bar_gap) * seriesCount cfg + cfg.group_gap) :
    (shownData cfg ca).length
      = Nat.min ((ca.width + cfg.group_gap + cfg.bar_gap)
          / ((cfg.bar_width + cfg.bar_gap) * (cfg.data.headD []).length + cfg.group_gap))
          cfg.data.length
    ∧ ∀ g, g < (shownData cfg ca).length →
        (shownData cfg ca).getD g []
          = (cfg.data.getD g []).map (fun v => scaleValue v ca.height (resolvedMax cfg)) := by
  have hM : maxIndex cfg ca
      = Nat.min ((ca.width + cfg.group_gap + cfg.bar_gap)
          / ((cfg.bar_width + cfg.bar_gap) * seriesCount cfg + cfg.group_gap))
          cfg.data.length := by
    unfold maxIndex visibleGroupCount
    rw [fitNumerator_eq _ _ _ hnum, perGroupWidth_eq _ _ _ _ hs hper]
  constructor
  · unfold shownData
    rw [List.length_map, List.length_take, hM]
    rw [Nat.min_assoc, Nat.min_self]
    rfl
  · intro g hg
    unfold shownData at hg ⊢
    rw [List.length_map, List.length_take] at hg
    have hgM : g < maxIndex cfg ca := lt_of_lt_of_le hg (Nat.min_le_left _ _)
    have hgn : g < cfg.data.length := lt_of_lt_of_le hg (Nat.min_le_right _ _)
    rw [List.getD_eq_getElem?_getD, List.getElem?_map]
    rw [List.getElem?_take_of_lt hgM]
    rw [List.getD_eq_getElem?_getD]
    cases hx : cfg.data[g]? with
    | none =>
        rw [List.getElem?_eq_none_iff] at hx
        omega
    | some l => simp

/-- C2 witness: the amended group-count law at a concrete in-range
configuration: two singleton groups, default gaps, area width 10. -/
theorem group_count_eq_witness :
    (({ Config.default with data := [[3], [4]] } : Config).data ≠ []
     ∧ 1 ≤ seriesCount { Config.default with data := [[3], [4]] })
    ∧ (shownData { Config.default with data := [[3], [4]] } ⟨0, 0, 10, 4⟩).length
        = Nat.min ((10 + 1 + 1) / ((1 + 1) * 1 + 1)) 2 := by
  constructor
  · exact ⟨by decide, by decide⟩
  · have h := group_count_eq { Config.default with data := [[3], [4]] }
      ⟨0, 0, 10, 4⟩ (by decide) (by decide) (by decide) (by decide) (by decide)
    have h1 := h.1
    simpa [Config.default, seriesCount] using h1

/-! ### C8: monotonicity of the visible-group count -/

/-- C8 counterexample: with wrapping `u16` arithmetic the visible-group
count is not monotonic in `bar_width`: raising `bar_width` from 1 to
65535 (with `bar_gap = group_gap = 1`, one series, width 100) makes the
divisor wrap from 3 to 1 and the count jump from 34 to 102. -/
theorem group_count_mono_cex :
    ¬ (visibleGroupCount 100 65535 1 1 1 200
        ≤ visibleGroupCount 100 1 1 1 1 200) := by decide

/-- C8 amended: for fixed area width and series count, whenever the fit
arithmetic stays in `u16` range after the increase and the divisor is
positive, the visible-group count is monotonic non-increasing when any
one of `barWidth`, `barGap`, `groupGap` increases by `δ`. -/
theorem group_count_mono (w bw bg gg s n δ : Nat)
    (hs : 1 ≤ s)
    (hper0 : 0 < (bw + bg) * s + gg)
    (hnum : w + gg + bg + δ < 65536)
    (hperδ : (bw + bg + δ) * s + gg + δ < 65536) :
    visibleGroupCount w (bw + δ) bg gg s n ≤ visibleGroupCount w bw bg gg s n
    ∧ visibleGroupCount w bw (bg + δ) gg s n ≤ visibleGroupCount w bw bg gg s n
    ∧ visibleGroupCount w bw bg (gg + δ) s n ≤ visibleGroupCount w bw bg gg s n := by
  have hδs : δ ≤ δ * s := by
    have := Nat.mul_le_mul_left δ hs
    omega
  have hper : (bw + bg) * s + gg < 65536 := by
    have : (bw + bg) * s ≤ (bw + bg + δ) * s := Nat.mul_le_mul_right _ (by omega)
    omega
  have hbase : perGroupWidth bw bg gg s = (bw + bg) * s + gg :=
    perGroupWidth_eq _ _ _ _ hs hper
  have hnumbase : fitNumerator w gg bg = w + gg + bg :=
    fitNumerator_eq _ _ _ (by omega)
  refine ⟨?_, ?_, ?_⟩
  · unfold visibleGroupCount
    rw [hbase, hnumbase]
    rw [perGroupWidth_eq _ _ _ _ hs (by
      have : (bw + δ + bg) * s ≤ (bw + bg + δ) * s := Nat.mul_le_mul_right _ (by omega)
      omega)]
    refine min_le_min ?_ le_rfl
    have hrw : (bw + δ + bg) * s + gg = ((bw + bg) * s + gg) + δ * s := by ring
    rw [hrw]
    calc (w + gg + bg) / ((bw + bg) * s + gg + δ * s)
        = (w + gg + bg + 0) / ((bw + bg) * s + gg + δ * s) := by rw [Nat.add_zero]
      _ ≤ (w + gg + bg) / ((bw + bg) * s + gg) :=
          divAddLe _ _ 0 (δ * s) hper0 (Nat.zero_le _)
  · unfold visibleGroupCount
    rw [hbase, hnumbase]
    rw [fitNumerator_eq _ _ _ (by omega)]
    rw [perGroupWidth_eq _ _ _ _ hs (by
      have : (bw + (bg + δ)) * s ≤ (bw + bg + δ) * s := Nat.mul_le_mul_right _ (by omega)
      omega)]
    refine min_le_min ?_ le_rfl
    have hrw1 : w + gg + (bg + δ) = (w + gg + bg) + δ := by ring
    have hrw2 : (bw + (bg + δ)) * s + gg = ((bw + bg) * s + gg) + δ * s := by ring
    rw [hrw1, hrw2]
    exact divAddLe _ _ δ (δ * s) hper0 hδs
  · unfold visibleGroupCount
    rw [hbase, hnumbase]
    rw [fitNumerator_eq _ _ _ (by omega)]
    rw [perGroupWidth_eq _ _ _ _ hs (by
      have : (bw + bg) * s ≤ (bw + bg + δ) * s := Nat.mul_le_mul_right _ (by omega)
      omega)]
    refine min_le_min ?_ le_rfl
    have hrw1 : w + (gg + δ) + bg = (w + gg + bg) + δ := by ring
    have hrw2 : (bw + bg) * s + (gg + δ) = ((bw + bg) * s + gg) + δ := by ring
    rw [hrw1, hrw2]
    exact divAddLe _ _ δ δ hper0 le_rfl

/-- C8 witness: monotonicity evaluated at `w = 10`, `bw = bg = gg = 1`,
`s = 1`, `n = 5`, increase `δ = 1`. -/
theorem group_count_mono_witness :
    (1 ≤ 1 ∧ 0 < (1 + 1) * 1 + 1 ∧ 10 + 1 + 1 + 1 < 65536)
    ∧ (visibleGroupCount 10 (1 + 1) 1 1 1 5 ≤ visibleGroupCount 10 1 1 1 1 5
       ∧ visibleGroupCount 10 1 (1 + 1) 1 1 5 ≤ visibleGroupCount 10 1 1 1 1 5
       ∧ visibleGroupCount 10 1 1 (1 + 1) 1 5 ≤ visibleGroupCount 10 1 1 1 1 5) :=
  ⟨⟨by decide, by decide, by decide⟩,
   group_count_mono 10 1 1 1 1 5 1 (by decide) (by decide) (by decide) (by decide)⟩

/-! ### List helper lemmas -/

theorem listGetD_lt {α : Type} (l : List α) (i : Nat) (d : α) (h : i < l.length) :
    l.getD i d = l.get ⟨i, h⟩ := by
  rw [List.getD_eq_getElem?_getD, List.getElem?_eq_getElem h]
  rfl

theorem listGetD_mem {α : Type} (l : List α) (i : Nat) (d : α) (h : i < l.length) :
    l.getD i d ∈ l := by
  rw [listGetD_lt l i d h]
  exact List.get_mem l i h

theorem headD_eq_getD {α : Type} (l : List α) (d : α) : l.headD d = l.getD 0 d := by
  cases l <;> rfl

theorem set_getD_self {α : Type} : ∀ (l : List α) (i : Nat) (d : α),
    l.set i (l.getD i d) = l
  | [], _, _ => rfl
  | _ :: _, 0, _ => rfl
  | a :: t, i + 1, d => by
      show a :: t.set i (t.getD i d) = a :: t
      rw [set_getD_self t i d]

theorem zipPush_length : ∀ (gs : List (List Nat)) (vs : List Nat),
    (zipPush gs vs).length = gs.length
  | [], vs => by cases vs <;> rfl
  | _ :: _, [] => rfl
  | _ :: gs, _ :: vs => by
      show (zipPush gs vs).length + 1 = gs.length + 1
      rw [zipPush_length gs vs]

theorem zipPush_getD_lt : ∀ (gs : List (List Nat)) (vs : List Nat) (i : Nat),
    i < gs.length → i < vs.length →
    (zipPush gs vs).getD i [] = gs.getD i [] ++ [vs.getD i 0]
  | [], _, i, hg, _ => by simp at hg
  | _ :: _, [], i, _, hv => by simp at hv
  | g :: gs, v :: vs, 0, _, _ => rfl
  | g :: gs, v :: vs, i + 1, hg, hv => by
      show (zipPush gs vs).getD i [] = gs.getD i [] ++ [vs.getD i 0]
      exact zipPush_getD_lt gs vs i (by simpa using hg) (by simpa using hv)

theorem zipPush_getD_ge : ∀ (gs : List (List Nat)) (vs : List Nat) (i : Nat),
    vs.length ≤ i → (zipPush gs vs).getD i [] = gs.getD i []
  | [], vs, _, _ => by cases vs <;> rfl
  | _ :: _, [], _, _ => rfl
  | g :: gs, v :: vs, 0, h0 => by simp at h0
  | g :: gs, v :: vs, i + 1, h => by
      show (zipPush gs vs).getD i [] = gs.getD i []
      exact zipPush_getD_ge gs vs i (by simpa using h)

/-! ### C4: add_data semantics -/

/-- C4: `add_data` on an empty configuration creates one singleton group
per input value; on `n` existing groups with exactly `n` values it
appends the `i`-th value to group `i` and keeps the group count. -/
theorem add_data_spec (cfg : Config) (vals : List Nat) :
    (cfg.data = [] → (cfg.add_data vals).data = vals.map (fun v => [v]))
    ∧ (cfg.data.length = vals.length →
        (cfg.add_data vals).data.length = cfg.data.length
        ∧ ∀ i, i < cfg.data.length →
            (cfg.add_data vals).data.getD i []
              = cfg.data.getD i [] ++ [vals.getD i 0]) := by
  constructor
  · intro h
    unfold Config.add_data
    rw [if_pos h]
  · intro hlen
    by_cases h : cfg.data = []
    · unfold Config.add_data
      rw [if_pos h]
      constructor
      · have : vals = [] := by
          rw [h] at hlen
          exact List.eq_nil_of_length_eq_zero hlen.symm
        rw [h, this]
        rfl
      · intro i hi
        rw [h] at hi
        simp at hi
    · unfold Config.add_data
      rw [if_neg h]
      refine ⟨zipPush_length _ _, ?_⟩
      intro i hi
      exact zipPush_getD_lt _ _ i hi (hlen ▸ hi)

/-- C4 witness: `add_data` evaluated on two groups and two values, and
on an empty configuration. -/
theorem add_data_spec_witness :
    (({ Config.default with data := [[1], [2]] } : Config).data.length
        = ([7, 9] : List Nat).length)
    ∧ (({ Config.default with data := [[1], [2]] } : Config).add_data [7, 9]).data.length = 2
    ∧ (({ Config.default with data := [[1], [2]] } : Config).add_data [7, 9]).data.getD 0 []
        = [1] ++ [7]
    ∧ (({ Config.default with data := [[1], [2]] } : Config).add_data [7, 9]).data.getD 1 []
        = [2] ++ [9]
    ∧ (Config.default.add_data [3, 4]).data = ([3, 4] : List Nat).map (fun v => [v]) := by
  have h := add_data_spec { Config.default with data := [[1], [2]] } [7, 9]
  have h2 := h.2 (by decide)
  have he := (add_data_spec Config.default [3, 4]).1 rfl
  exact ⟨by decide, h2.1, h2.2 0 (by decide), h2.2 1 (by decide), he⟩

/-! ### C10: add_data with fewer values than groups -/

/-- C10 counterexample: the claim asserts that after calling `add_data`
with `k < n` values the groups "no longer all contain the same number of
series values".  With `k = 0` (an empty value list) no group is touched:
two groups exist, the call supplies `0 < 2` values, and afterwards every
group still holds exactly one value. -/
theorem add_data_short_cex :
    (Config.default.add_data [5, 7]).data.length = 2
    ∧ ([] : List Nat).length < 2
    ∧ ((Config.default.add_data [5, 7]).add_data []).data.map List.length = [1, 1] := by
  decide

/-- C10 amended: if `add_data` is called with `k` values, `1 ≤ k < n`,
when `n` groups of equal length `L` exist, then exactly the first `k`
groups receive an appended value, groups `k..n-1` keep length `L`, the
groups no longer all have the same length, and the first group's length
`L + 1` is what render later reads as the series count; the fluent
setters do not touch the data, so nothing repairs the state. -/
theorem add_data_short (cfg : Config) (vals : List Nat) (L : Nat)
    (hlen : ∀ g ∈ cfg.data, g.length = L)
    (hk1 : 1 ≤ vals.length)
    (hkn : vals.length < cfg.data.length) :
    (cfg.add_data vals).data.length = cfg.data.length
    ∧ (∀ i, i < vals.length → ((cfg.add_data vals).data.getD i []).length = L + 1)
    ∧ (∀ i, vals.length ≤ i → i < cfg.data.length →
        ((cfg.add_data vals).data.getD i []).length = L)
    ∧ ¬ (∀ a ∈ (cfg.add_data vals).data, ∀ b ∈ (cfg.add_data vals).data,
          a.length = b.length)
    ∧ seriesCount (cfg.add_data vals) = L + 1
    ∧ (∀ w, ((cfg.add_data vals).bar_width' w).data = (cfg.add_data vals).data)
    ∧ (∀ m, ((cfg.add_data vals).max' m).data = (cfg.add_data vals).data)
    ∧ (∀ ls, ((cfg.add_data vals).labels' ls).data = (cfg.add_data vals).data) := by
  have hne : cfg.data ≠ [] := by
    intro h
    rw [h] at hkn
    simp at hkn
  have hdata : (cfg.add_data vals).data = zipPush cfg.data vals := by
    unfold Config.add_data
    rw [if_neg hne]
  have hlength : (cfg.add_data vals).data.length = cfg.data.length := by
    rw [hdata]
    exact zipPush_length _ _
  have hgetlt : ∀ i, i < vals.length → ((cfg.add_data vals).data.getD i []).length = L + 1 := by
    intro i hi
    rw [hdata, zipPush_getD_lt _ _ i (by omega) hi]
    rw [List.length_append]
    have hmem : (cfg.data.getD i []).length = L :=
      hlen _ (listGetD_mem cfg.data i [] (by omega))
    rw [hmem, List.length_singleton]
  have hgetge : ∀ i, vals.length ≤ i → i < cfg.data.length →
      ((cfg.add_data vals).data.getD i []).length = L := by
    intro i hi hin
    rw [hdata, zipPush_getD_ge _ _ i hi]
    exact hlen _ (listGetD_mem cfg.data i [] hin)
  refine ⟨hlength, hgetlt, hgetge, ?_, ?_, fun _ => rfl, fun _ => rfl, fun _ => rfl⟩
  · intro hall
    have h0 : ((cfg.add_data vals).data.getD 0 []).length = L + 1 := hgetlt 0 hk1
    have hlast : ((cfg.add_data vals).data.getD vals.length []).length = L :=
      hgetge vals.length le_rfl hkn
    have hm0 : (cfg.add_data vals).data.getD 0 [] ∈ (cfg.add_data vals).data :=
      listGetD_mem _ 0 [] (by omega)
    have hmlast : (cfg.add_data vals).data.getD vals.length [] ∈ (cfg.add_data vals).data :=
      listGetD_mem _ vals.length [] (by omega)
    have := hall _ hm0 _ hmlast
    omega
  · unfold seriesCount
    rw [headD_eq_getD]
    exact hgetlt 0 hk1

/-- C10 witness: three groups of length 1 receive two values: the first
two groups grow to length 2, the third keeps length 1, and the first
group's length is the series count render would use. -/
theorem add_data_short_witness :
    (1 ≤ ([9, 9] : List Nat).length ∧ ([9, 9] : List Nat).length < 3)
    ∧ (({ Config.default with data := [[1], [2], [3]] } : Config).add_data [9, 9]).data.length = 3
    ∧ ((({ Config.default with data := [[1], [2], [3]] } : Config).add_data [9, 9]).data.getD 0 []).length = 2
    ∧ ((({ Config.default with data := [[1], [2], [3]] } : Config).add_data [9, 9]).data.getD 2 []).length = 1
    ∧ seriesCount (({ Config.default with data := [[1], [2], [3]] } : Config).add_data [9, 9]) = 2 := by
  have h := add_data_short { Config.default with data := [[1], [2], [3]] } [9, 9] 1
    (by intro g hg; fin_cases hg <;> rfl) (by decide) (by decide)
  exact ⟨⟨by decide, by decide⟩, h.1, h.2.1 0 (by decide), h.2.2.1 2 (by decide) (by decide),
    h.2.2.2.2.1⟩

/-! ### C9: size negotiation -/

/-- A concrete wrapper whose minimum size is 0 × 2. -/
def blkTall : Block := ⟨fun r => r, fun _ => ⟨0, 2⟩, fun _ b => b⟩

/-- C9 counterexample: the claim says a wrapped chart reports a height
equal to the wrapper's minimum plus one row.  With a wrapper of minimum
height 2 and a proposed height of 10 the code reports
`max(10, 2 + 1) = 10`, not `3`. -/
theorem size_hint_cex :
    size_hint { Config.default with block := some blkTall } ⟨0, 0, 20, 10⟩ = ⟨20, 10⟩
    ∧ (blkTall.size_hint Rect.default).height + 1 = 3
    ∧ (10 : Nat) ≠ 3 := by
  refine ⟨?_, rfl, by decide⟩
  rfl

/-- C9 amended: with no wrapper `size_hint` returns the proposed size
unchanged; with a wrapper it returns the proposed width and height each
clamped from below by the wrapper's minimum (the height by the wrapper's
minimum plus one row). -/
theorem size_hint_eq (cfg : Config) (area : Rect) :
    (cfg.block = none → size_hint cfg area = ⟨area.width, area.height⟩)
    ∧ (∀ b, cfg.block = some b →
        size_hint cfg area
          = ⟨Nat.max area.width (b.size_hint Rect.default).width,
             Nat.max area.height ((b.size_hint Rect.default).height + 1)⟩) := by
  constructor
  · intro h
    unfold size_hint
    rw [h]
  · intro b h
    unfold size_hint
    rw [h]

/-- C9 witness: the amended size-negotiation law evaluated with the
concrete 0 × 2 wrapper and a 20 × 10 proposed area, and without a
wrapper. -/
theorem size_hint_eq_witness :
    size_hint { Config.default with block := some blkTall } ⟨0, 0, 20, 10⟩
      = ⟨Nat.max 20 (blkTall.size_hint Rect.default).width,
         Nat.max 10 ((blkTall.size_hint Rect.default).height + 1)⟩
    ∧ size_hint Config.default ⟨0, 0, 20, 10⟩ = ⟨20, 10⟩ :=
  ⟨(size_hint_eq { Config.default with block := some blkTall } ⟨0, 0, 20, 10⟩).2 blkTall rfl,
   (size_hint_eq Config.default ⟨0, 0, 20, 10⟩).1 rfl⟩

/-! ### C5: the degenerate render is not a no-op -/

theorem patch_default (s : Style) : s.patch Style.default = s := by
  cases s
  rfl

theorem modifyCell_patch_default (buf : Buffer) (x y : Nat) :
    buf.modifyCell x y (fun c => { c with style := c.style.patch Style.default }) = buf := by
  have hf : ∀ c : Cell, ({ c with style := c.style.patch Style.default } : Cell) = c := by
    intro c
    cases c
    rw [patch_default]
  unfold Buffer.modifyCell
  split
  · simp only [hf]
    rw [set_getD_self]
  · rfl

theorem foldl_modifyCell_default : ∀ (ps : List (Nat × Nat)) (buf : Buffer),
    ps.foldl (fun b p =>
      b.modifyCell p.1 p.2 (fun c => { c with style := c.style.patch Style.default })) buf
      = buf
  | [], _ => rfl
  | p :: ps, buf => by
      show ps.foldl _ (buf.modifyCell p.1 p.2 _) = buf
      rw [modifyCell_patch_default]
      exact foldl_modifyCell_default ps buf

/-- C5 counterexample: the claim says that for a degenerate chart area
the buffer is left entirely unchanged, but `buf.set_style(area, style)`
runs before the early-exit check (line 159).  A configuration whose
style sets a foreground, rendered into a 1 × 1 area (height < 2, no
data), changes the buffer. -/
theorem degenerate_render_cex :
    applyWrites
        (render { Config.default with style := ⟨some 1, none⟩ } ⟨0, 0, 1, 1⟩)
        ⟨⟨0, 0, 1, 1⟩, [Cell.default]⟩
      ≠ ⟨⟨0, 0, 1, 1⟩, [Cell.default]⟩ := by
  decide

/-- C5 amended: for a degenerate chart area (height < 2 or empty data)
nothing beyond the initial whole-area style application and wrapper
painting is emitted; in particular with the default style and no wrapper
the buffer is left entirely unchanged. -/
theorem degenerate_render_noop (cfg : Config) (area : Rect) (buf : Buffer)
    (hst : cfg.style = Style.default)
    (hb : cfg.block = none)
    (hcond : (chartArea cfg area).height < 2 ∨ cfg.data = []) :
    applyWrites (render cfg area) buf = buf := by
  unfold render
  rw [if_pos hcond]
  unfold preOps
  rw [hb, hst]
  show applyWrite buf (WriteOp.setStyle area Style.default) = buf
  unfold applyWrite
  exact foldl_modifyCell_default _ _

/-- C5 witness: the default configuration (default style, no wrapper,
no data) rendered into a 2 × 2 area leaves a concrete 1 × 1 buffer
unchanged. -/
theorem degenerate_render_noop_witness :
    applyWrites (render Config.default ⟨0, 0, 2, 2⟩) ⟨⟨0, 0, 1, 1⟩, [Cell.default]⟩
      = ⟨⟨0, 0, 1, 1⟩, [Cell.default]⟩ :=
  degenerate_render_noop Config.default ⟨0, 0, 2, 2⟩ ⟨⟨0, 0, 1, 1⟩, [Cell.default]⟩
    rfl rfl (Or.inr rfl)

/-! ### C3: the row-by-row paint loop -/

theorem levelSymbol_full (set : BarSet) (d : Nat) (h : 8 ≤ d) :
    levelSymbol set d = set.full := by
  obtain ⟨k, rfl⟩ : ∃ k, d = k + 8 := ⟨d - 8, by omega⟩
  rfl

theorem nextLevel_le (e : Nat) (h : e ≤ 8) : nextLevel e = 0 := by
  unfold nextLevel
  rw [if_neg (by omega)]

theorem nextLevel_gt (e : Nat) (h : 9 ≤ e) : nextLevel e = e - 8 := by
  unfold nextLevel
  rw [if_pos (by omega)]

theorem barGlyphs_zero (set : BarSet) : ∀ r : Nat,
    barGlyphs set 0 r = List.replicate r set.empty
  | 0 => rfl
  | r + 1 => by
      show levelSymbol set 0 :: barGlyphs set (nextLevel 0) r = _
      rw [nextLevel_le 0 (by omega), barGlyphs_zero set r]
      rfl

theorem bar_column (set : BarSet) : ∀ (rows e : Nat), e ≤ rows * 8 →
    barGlyphs set e rows
      = List.replicate (e / 8) set.full
        ++ (if e % 8 = 0 then [] else [levelSymbol set (e % 8)])
        ++ List.replicate (rows - (e + 7) / 8) set.empty
  | 0, e, he => by
      have h0 : e = 0 := by omega
      subst h0
      simp [barGlyphs]
  | r + 1, e, he => by
      show levelSymbol set e :: barGlyphs set (nextLevel e) r = _
      by_cases h9 : 9 ≤ e
      · rw [nextLevel_gt e h9]
        rw [bar_column set r (e - 8) (by omega)]
        rw [levelSymbol_full set e (by omega)]
        have h1 : e / 8 = (e - 8) / 8 + 1 := by omega
        have h2 : e % 8 = (e - 8) % 8 := by omega
        have h3 : (r + 1) - (e + 7) / 8 = r - (e - 8 + 7) / 8 := by omega
        rw [h1, h2, h3, List.replicate_succ]
        simp [List.cons_append]
      · rw [nextLevel_le e (by omega), barGlyphs_zero set r]
        by_cases h8 : e = 8
        · subst h8
          have h1 : (8 : Nat) / 8 = 1 := by omega
          have h2 : (8 : Nat) % 8 = 0 := by omega
          have h3 : (r + 1) - (8 + 7) / 8 = r := by omega
          rw [h1, h2, h3, if_pos rfl]
          rw [levelSymbol_full set 8 (by omega)]
          simp [List.replicate_succ]
        · by_cases h0 : e = 0
          · subst h0
            simp [levelSymbol, List.replicate_succ]
          · have h1 : e / 8 = 0 := by omega
            have h2 : e % 8 = e := by omega
            have h3 : (r + 1) - (e + 7) / 8 = r := by omega
            rw [h1, h2, h3, if_neg h0]
            simp

theorem stepLevels_getD (data : List (List Nat)) (g t : Nat)
    (hg : g < data.length) (ht : t < (data.getD g []).length) :
    ((stepLevels data).getD g []).getD t 0
      = nextLevel ((data.getD g []).getD t 0) := by
  have hmap : (stepLevels data).getD g [] = List.map nextLevel (data.getD g []) := by
    rw [List.getD_eq_getElem?_getD, List.getD_eq_getElem?_getD]
    unfold stepLevels
    rw [List.getElem?_map]
    cases hx : data[g]? with
    | none => rfl
    | some l => rfl
  rw [hmap]
  generalize data.getD g [] = l at ht ⊢
  induction l generalizing t with
  | nil => simp at ht
  | cons a l ih =>
      cases t with
      | zero => rfl
      | succ t => exact ih t (by simpa using ht)

/-- C3: for a bar whose eighths-height `e` fits the chart body
(`e ≤ rows * 8` with `rows = height - 1`), the paint loop's glyph column
for that bar, bottom row first, consists of exactly `e / 8` full-block
rows at the bottom, then one row with the glyph for `e mod 8` when
`e mod 8 ≠ 0`, and the empty glyph on every higher row; a remaining
height of 8 or more always selects the full block, and the per-row
decrement acts on every bar of the working data componentwise. -/
theorem paint_loop_glyphs (set : BarSet) (rows e : Nat) (he : e ≤ rows * 8) :
    barGlyphs set e rows
      = List.replicate (e / 8) set.full
        ++ (if e % 8 = 0 then [] else [levelSymbol set (e % 8)])
        ++ List.replicate (rows - (e + 7) / 8) set.empty
    ∧ (∀ d, 8 ≤ d → levelSymbol set d = set.full)
    ∧ (∀ (data : List (List Nat)) (g t : Nat), g < data.length →
        t < (data.getD g []).length →
        ((stepLevels data).getD g []).getD t 0
          = nextLevel ((data.getD g []).getD t 0)) :=
  ⟨bar_column set rows e he,
   fun d hd => levelSymbol_full set d hd,
   fun data g t hg ht => stepLevels_getD data g t hg ht⟩

/-- C3 witness: the glyph column of a bar of height 12 eighths in a
3-row body: one full block, then the half block (12 mod 8 = 4), then
one empty row. -/
theorem paint_loop_glyphs_witness :
    (12 ≤ 3 * 8)
    ∧ barGlyphs NINE_LEVELS 12 3
        = List.replicate (12 / 8) NINE_LEVELS.full
          ++ (if 12 % 8 = 0 then [] else [levelSymbol NINE_LEVELS (12 % 8)])
          ++ List.replicate (3 - (12 + 7) / 8) NINE_LEVELS.empty :=
  ⟨by decide, (paint_loop_glyphs NINE_LEVELS 3 12 (by decide)).1⟩

/-! ### C7: writes and the target area -/

/-- C7 counterexample: the claim says every cell written lies within the
target area.  With two series, chart height 2 and area top 5, the value
label of series index 1 is placed at row `bottom - 2 - 1 = 4`, one row
above the area (line 261), so a write escapes the target rectangle. -/
theorem writes_outside_cex :
    ¬ ∀ p ∈ allCells (render { Config.default with data := [[1, 1]] } ⟨0, 5, 5, 2⟩),
        Rect.containsXY ⟨0, 5, 5, 2⟩ p.1 p.2 := by
  decide

theorem coordsIn_mem (r : Rect) (p : Nat × Nat) (h : p ∈ coordsIn r) :
    r.containsXY p.1 p.2 := by
  unfold coordsIn at h
  simp only [List.mem_flatten, List.mem_map, List.mem_range] at h
  obtain ⟨l, ⟨dy, hdy, rfl⟩, hp⟩ := h
  simp only [List.mem_map, List.mem_range] at hp
  obtain ⟨dx, hdx, rfl⟩ := hp
  exact ⟨by omega, by simp; omega, by omega, by simp; omega⟩

/-- Horizontal bound for a bar cell: bar `t` of group `g` (both within
range), painted at column offset `(g*s + t)*(bw+bg) + g*gg + c` with
`c < bw`, stays left of the chart width. -/
theorem colBound (w bw bg gg s M g t c : Nat) (ht : t < s) (hg : g < M)
    (hc : c < bw)
    (hM : M * ((bw + bg) * s + gg) ≤ w + gg + bg) :
    (g * s + t) * (bw + bg) + g * gg + c < w := by
  have key : (g + 1) * ((bw + bg) * s + gg) ≤ M * ((bw + bg) * s + gg) :=
    Nat.mul_le_mul_right _ (by omega)
  have hexp : (g + 1) * ((bw + bg) * s + gg)
      = g * ((bw + bg) * s) + (bw + bg) * s + g * gg + gg := by ring
  have hts : (t + 1) * (bw + bg) ≤ s * (bw + bg) :=
    Nat.mul_le_mul_right _ (by omega)
  have h2 : (g * s + t) * (bw + bg) = g * ((bw + bg) * s) + t * (bw + bg) := by
    ring
  have h3 : (t + 1) * (bw + bg) = t * (bw + bg) + (bw + bg) := by ring
  have h4 : s * (bw + bg) = (bw + bg) * s := by ring
  rw [h2]
  rw [hexp] at key
  rw [h3, h4] at hts
  omega

/-- Horizontal bound for a category label: group `i < M`, label cell at
column offset `i*s*(bw+bg) + gg*i + c` with `c` below the full group
width `s*bw + (s-1)*bg`, stays left of the chart width. -/
theorem lblBound (w bw bg gg s M i c : Nat) (hs : 1 ≤ s) (hi : i < M)
    (hc : c < s * bw + (s - 1) * bg)
    (hM : M * ((bw + bg) * s + gg) ≤ w + gg + bg) :
    i * s * (bw + bg) + gg * i + c < w := by
  have key : (i + 1) * ((bw + bg) * s + gg) ≤ M * ((bw + bg) * s + gg) :=
    Nat.mul_le_mul_right _ (by omega)
  have hexp : (i + 1) * ((bw + bg) * s + gg)
      = i * s * (bw + bg) + (bw + bg) * s + gg * i + gg := by ring
  have h5 : (s - 1) * bg + bg = s * bg := by
    have hs1 : s - 1 + 1 = s := by omega
    calc (s - 1) * bg + bg = ((s - 1) + 1) * bg := by ring
      _ = s * bg := by rw [hs1]
  have h8 : s * bw + s * bg = (bw + bg) * s := by ring
  rw [hexp] at key
  omega

theorem stepLevels_length (dat : List (List Nat)) :
    (stepLevels dat).length = dat.length := by
  unfold stepLevels
  rw [List.length_map]

theorem stepLevels_mem_length (dat : List (List Nat)) (s : Nat)
    (h : ∀ d ∈ dat, d.length = s) :
    ∀ d ∈ stepLevels dat, d.length = s := by
  intro d hd
  unfold stepLevels at hd
  obtain ⟨d', hd', rfl⟩ := List.mem_map.mp hd
  rw [List.length_map]
  exact h d' hd'

theorem allCells_append (a b : List WriteOp) :
    allCells (a ++ b) = allCells a ++ allCells b := by
  unfold allCells
  rw [List.map_append, List.flatten_append]

theorem take_reverse_cons {α : Type} (l : List α) (m : Nat) (d : α)
    (h : m < l.length) :
    (l.take (m + 1)).reverse = l.getD m d :: (l.take m).reverse := by
  rw [listGetD_lt l m d h, List.take_succ, List.getElem?_eq_getElem h]
  simp

theorem mem_allCells_map_cell (f : Nat → Nat) (yy : Nat) (sym : String) (st : Style) :
    ∀ (n : Nat) (p : Nat × Nat),
      p ∈ allCells ((List.range n).map (fun x => WriteOp.cell (f x) yy sym st)) →
      ∃ x, x < n ∧ p = (f x, yy)
  | 0, p, hp => by simp [allCells] at hp
  | n + 1, p, hp => by
      rw [List.range_succ, List.map_append, allCells_append] at hp
      rcases List.mem_append.mp hp with hp | hp
      · obtain ⟨x, hx, hpx⟩ := mem_allCells_map_cell f yy sym st n p hp
        exact ⟨x, by omega, hpx⟩
      · have hmem : p ∈ [(f n, yy)] := by
          simpa [allCells, opCells] using hp
        exact ⟨n, by omega, List.mem_singleton.mp hmem⟩

theorem groupGo_mem (cfg : Config) (ca : Rect) (j s M : Nat) :
    ∀ (bars : List Nat) (k t0 i xoff : Nat),
      i = k * s + t0 → xoff = k * cfg.group_gap →
      t0 + bars.length ≤ s → k < M →
      M * ((cfg.bar_width + cfg.bar_gap) * s + cfg.group_gap)
        ≤ ca.width + cfg.group_gap + cfg.bar_gap →
      j < ca.height →
      ∀ p ∈ allCells (groupGo cfg ca j bars i t0 xoff), ca.containsXY p.1 p.2
  | [], k, t0, i, xoff, hi, hx, hlen, hk, hM, hj, p, hp => by
      simp [groupGo, allCells] at hp
  | lvl :: rest, k, t0, i, xoff, hi, hx, hlen, hk, hM, hj, p, hp => by
      rw [show groupGo cfg ca j (lvl :: rest) i t0 xoff
          = (List.range cfg.bar_width).map (fun x =>
              WriteOp.cell (ca.left + i * (cfg.bar_width + cfg.bar_gap) + x + xoff)
                (ca.top + j) (levelSymbol cfg.bar_set lvl) (styleAt cfg.bar_styles t0))
            ++ groupGo cfg ca j rest (i + 1) (t0 + 1) xoff from rfl,
        allCells_append] at hp
      rcases List.mem_append.mp hp with hp | hp
      · obtain ⟨x, hxlt, hpx⟩ := mem_allCells_map_cell
          (fun x => ca.left + i * (cfg.bar_width + cfg.bar_gap) + x + xoff)
          (ca.top + j) (levelSymbol cfg.bar_set lvl) (styleAt cfg.bar_styles t0)
          cfg.bar_width p hp
        subst hpx
        subst hi
        subst hx
        have hlen' : t0 + rest.length + 1 ≤ s := by
          simp only [List.length_cons] at hlen
          omega
        have hcb := colBound ca.width cfg.bar_width cfg.bar_gap cfg.group_gap s M k t0 x
          (by omega) hk hxlt hM
        unfold Rect.containsXY
        refine ⟨?_, ?_, ?_, ?_⟩ <;> simp only [Rect.left, Rect.top] <;> omega
      · exact groupGo_mem cfg ca j s M rest k (t0 + 1) (i + 1) xoff
          (by omega) hx (by simp at hlen; omega) hk hM hj p hp

theorem rowGo_mem (cfg : Config) (ca : Rect) (j s M : Nat) :
    ∀ (groups : List (List Nat)) (k i xoff : Nat),
      i = k * s → xoff = k * cfg.group_gap →
      (∀ d ∈ groups, d.length = s) →
      k + groups.length ≤ M →
      M * ((cfg.bar_width + cfg.bar_gap) * s + cfg.group_gap)
        ≤ ca.width + cfg.group_gap + cfg.bar_gap →
      j < ca.height →
      ∀ p ∈ allCells (rowGo cfg ca j groups i xoff), ca.containsXY p.1 p.2
  | [], k, i, xoff, hi, hx, hlen, hk, hM, hj, p, hp => by
      simp [rowGo, allCells] at hp
  | d :: rest, k, i, xoff, hi, hx, hlen, hk, hM, hj, p, hp => by
      rw [show rowGo cfg ca j (d :: rest) i xoff
          = groupGo cfg ca j d i 0 xoff
            ++ rowGo cfg ca j rest (i + d.length) (xoff + cfg.group_gap) from rfl,
        allCells_append] at hp
      have hds : d.length = s := hlen d (by simp)
      rcases List.mem_append.mp hp with hp | hp
      · exact groupGo_mem cfg ca j s M d k 0 i xoff (by omega) hx
          (by omega) (by simp at hk; omega) hM hj p hp
      · have hkk : (k + 1) * s = k * s + s := by ring
        have hgg : (k + 1) * cfg.group_gap = k * cfg.group_gap + cfg.group_gap := by
          ring
        exact rowGo_mem cfg ca j s M rest (k + 1) (i + d.length) (xoff + cfg.group_gap)
          (by omega) (by omega) (fun d' hd' => hlen d' (by simp [hd']))
          (by simp at hk; omega) hM hj p hp

theorem barRows_mem (cfg : Config) (ca : Rect) (s M : Nat) :
    ∀ (rows : Nat) (dat : List (List Nat)),
      (∀ d ∈ dat, d.length = s) →
      dat.length ≤ M →
      rows ≤ ca.height →
      M * ((cfg.bar_width + cfg.bar_gap) * s + cfg.group_gap)
        ≤ ca.width + cfg.group_gap + cfg.bar_gap →
      ∀ p ∈ allCells (barRows cfg ca dat rows), ca.containsXY p.1 p.2
  | 0, dat, hlen, hM1, hrows, hM, p, hp => by
      simp [barRows, allCells] at hp
  | r + 1, dat, hlen, hM1, hrows, hM, p, hp => by
      rw [show barRows cfg ca dat (r + 1)
          = rowGo cfg ca r dat 0 0 ++ barRows cfg ca (stepLevels dat) r from rfl,
        allCells_append] at hp
      rcases List.mem_append.mp hp with hp | hp
      · exact rowGo_mem cfg ca r s M dat 0 0 0
          (by simp) (by simp) hlen (by omega) hM (by omega) p hp
      · exact barRows_mem cfg ca s M r (stepLevels dat)
          (stepLevels_mem_length dat s hlen)
          (by rw [stepLevels_length]; exact hM1) (by omega) hM p hp

theorem mem_opCells_str (x y : Nat) (text : String) (st : Style) (p : Nat × Nat)
    (hp : p ∈ opCells (WriteOp.str x y text st)) :
    ∃ k, k < text.length ∧ p = (x + k, y) := by
  simp only [opCells, List.mem_map, List.mem_range] at hp
  obtain ⟨k, hk, hpk⟩ := hp
  exact ⟨k, hk, hpk.symm⟩

theorem mem_opCells_strn (x y maxW : Nat) (text : String) (st : Style) (p : Nat × Nat)
    (hp : p ∈ opCells (WriteOp.strn x y text maxW st)) :
    ∃ k, k < Nat.min text.length maxW ∧ p = (x + k, y) := by
  simp only [opCells, List.mem_map, List.mem_range] at hp
  obtain ⟨k, hk, hpk⟩ := hp
  exact ⟨k, hk, hpk.symm⟩

theorem mem_allCells_map {α : Type} (f : α → WriteOp) :
    ∀ (l : List α) (p : Nat × Nat), p ∈ allCells (l.map f) →
      ∃ a ∈ l, p ∈ opCells (f a)
  | [], p, hp => by simp [allCells] at hp
  | a :: l, p, hp => by
      rw [List.map_cons,
        show allCells (f a :: List.map f l) = opCells (f a) ++ allCells (l.map f)
          from rfl] at hp
      rcases List.mem_append.mp hp with hp | hp
      · exact ⟨a, by simp, hp⟩
      · obtain ⟨b, hb, hpb⟩ := mem_allCells_map f l p hp
        exact ⟨b, by simp [hb], hpb⟩

theorem valueSeriesRev_mem (cfg : Config) (ca : Rect) (s M g : Nat)
    (d : List Nat)
    (hds : d.length = s) (hg : g < M)
    (hM : M * ((cfg.bar_width + cfg.bar_gap) * s + cfg.group_gap)
        ≤ ca.width + cfg.group_gap + cfg.bar_gap)
    (hval : ∀ t, t < d.length → d.getD t 0 ≠ 0 →
        t + 2 ≤ ca.height ∧ (cfg.format (d.getD t 0)).length ≤ cfg.bar_width) :
    ∀ (m i xoff : Nat), m ≤ d.length → i = g * s + m → xoff = cfg.group_gap * g →
      ∀ p ∈ allCells (valueSeriesRev cfg ca (d.take m).reverse i xoff),
        ca.containsXY p.1 p.2
  | 0, i, xoff, hm, hi, hx, p, hp => by
      simp [valueSeriesRev, allCells] at hp
  | m + 1, i, xoff, hm, hi, hx, p, hp => by
      rw [take_reverse_cons d m 0 (by omega)] at hp
      simp only [valueSeriesRev] at hp
      rw [allCells_append] at hp
      rcases List.mem_append.mp hp with hp | hp
      · by_cases hv : d.getD m 0 = 0
        · rw [if_pos hv] at hp
          simp [allCells] at hp
        · rw [if_neg hv] at hp
          have hlrev : ((d.take m).reverse).length = m := by
            rw [List.length_reverse, List.length_take]
            omega
          rw [hlrev] at hp
          have hp' : p ∈ opCells (WriteOp.str
              (ca.left + (i - 1) * (cfg.bar_width + cfg.bar_gap) + xoff
                + (cfg.bar_width - (cfg.format (d.getD m 0)).length) / 2)
              (ca.bottom - 2 - m)
              (cfg.format (d.getD m 0)) (styleAt cfg.value_styles m)) := by
            simpa [allCells] using hp
          obtain ⟨k, hk, hpk⟩ := mem_opCells_str _ _ _ _ p hp'
          subst hpk
          obtain ⟨hm2, hlw⟩ := hval m (by omega) hv
          have hieq : i - 1 = g * s + m := by omega
          have hc : (cfg.bar_width - (cfg.format (d.getD m 0)).length) / 2 + k
              < cfg.bar_width := by omega
          have hcb := colBound ca.width cfg.bar_width cfg.bar_gap cfg.group_gap s M g m
            ((cfg.bar_width - (cfg.format (d.getD m 0)).length) / 2 + k)
            (by omega) hg hc hM
          subst hx
          have hgg : cfg.group_gap * g = g * cfg.group_gap := by ring
          rw [hieq, hgg]
          unfold Rect.containsXY
          refine ⟨?_, ?_, ?_, ?_⟩ <;>
            simp only [Rect.left, Rect.bottom] <;> omega
      · exact valueSeriesRev_mem cfg ca s M g d hds hg hM hval m (i - 1) xoff
          (by omega) (by omega) hx p hp

theorem valueGroups_mem (cfg : Config) (ca : Rect) (s M : Nat)
    (hM : M * ((cfg.bar_width + cfg.bar_gap) * s + cfg.group_gap)
        ≤ ca.width + cfg.group_gap + cfg.bar_gap) :
    ∀ (rs : List (List Nat)) (k i xoff : Nat),
      rs.length = k → k ≤ M → i = k * s → xoff = cfg.group_gap * k →
      (∀ d ∈ rs, d.length = s
        ∧ ∀ t, t < d.length → d.getD t 0 ≠ 0 →
            t + 2 ≤ ca.height ∧ (cfg.format (d.getD t 0)).length ≤ cfg.bar_width) →
      ∀ p ∈ allCells (valueGroups cfg ca rs i xoff), ca.containsXY p.1 p.2
  | [], k, i, xoff, _, _, _, _, _, p, hp => by
      simp [valueGroups, allCells] at hp
  | d :: rest, k, i, xoff, hlen, hkM, hi, hx, hmem, p, hp => by
      have hlen' : rest.length + 1 = k := by simpa using hlen
      simp only [valueGroups] at hp
      rw [allCells_append] at hp
      have hds := (hmem d (by simp)).1
      have hdval := (hmem d (by simp)).2
      have hks : k * s = (k - 1) * s + s := by
        have h1 : k - 1 + 1 = k := by omega
        calc k * s = ((k - 1) + 1) * s := by rw [h1]
          _ = (k - 1) * s + s := by ring
      have hkg : cfg.group_gap * k = cfg.group_gap * (k - 1) + cfg.group_gap := by
        have h1 : k - 1 + 1 = k := by omega
        calc cfg.group_gap * k = cfg.group_gap * ((k - 1) + 1) := by rw [h1]
          _ = cfg.group_gap * (k - 1) + cfg.group_gap := by ring
      rcases List.mem_append.mp hp with hp | hp
      · rw [show d.reverse = (d.take d.length).reverse from by
          rw [List.take_length]] at hp
        exact valueSeriesRev_mem cfg ca s M (k - 1) d hds (by omega) hM hdval
          d.length i (xoff - cfg.group_gap) le_rfl (by omega) (by omega) p hp
      · exact valueGroups_mem cfg ca s M hM rest (k - 1) (i - d.length)
          (xoff - cfg.group_gap) (by omega) (by omega) (by omega) (by omega)
          (fun d' hd' => hmem d' (by simp [hd'])) p hp

theorem valueOps_mem (cfg : Config) (ca : Rect) (s M : Nat)
    (hM : M * ((cfg.bar_width + cfg.bar_gap) * s + cfg.group_gap)
        ≤ ca.width + cfg.group_gap + cfg.bar_gap)
    (hMn : M ≤ cfg.data.length)
    (hu : ∀ d ∈ cfg.data, d.length = s)
    (hval : ∀ d ∈ cfg.data.take M, ∀ t, t < d.length → d.getD t 0 ≠ 0 →
        t + 2 ≤ ca.height ∧ (cfg.format (d.getD t 0)).length ≤ cfg.bar_width) :
    ∀ p ∈ allCells (valueOps cfg ca M s), ca.containsXY p.1 p.2 := by
  intro p hp
  unfold valueOps at hp
  refine valueGroups_mem cfg ca s M hM (cfg.data.take M).reverse M (M * s)
    (cfg.group_gap * M) ?_ le_rfl rfl rfl ?_ p hp
  · rw [List.length_reverse, List.length_take]
    omega
  · intro d hd
    rw [List.mem_reverse] at hd
    exact ⟨hu d (List.take_subset M cfg.data hd), hval d hd⟩

theorem labelOps_mem (cfg : Config) (ca : Rect) (s M m : Nat)
    (hs : 1 ≤ s) (hmM : m ≤ M)
    (hM : M * ((cfg.bar_width + cfg.bar_gap) * s + cfg.group_gap)
        ≤ ca.width + cfg.group_gap + cfg.bar_gap)
    (hh : 1 ≤ ca.height) :
    ∀ p ∈ allCells (labelOps cfg ca m s), ca.containsXY p.1 p.2 := by
  intro p hp
  simp only [labelOps] at hp
  obtain ⟨iIdx, hiIdx, hpop⟩ := mem_allCells_map _ _ p hp
  rw [List.mem_range] at hiIdx
  obtain ⟨k, hk, hpk⟩ := mem_opCells_strn _ _ _ _ _ p hpop
  subst hpk
  have hiM : iIdx < M := by
    have := List.length_take m cfg.labels
    omega
  have hk1 : k < ((cfg.labels.take m).getD iIdx ("")).length :=
    lt_of_lt_of_le hk (Nat.min_le_left _ _)
  have hk2 : k < s * cfg.bar_width + (s - 1) * cfg.bar_gap :=
    lt_of_lt_of_le hk (Nat.min_le_right _ _)
  have hc : (s * cfg.bar_width + (s - 1) * cfg.bar_gap
        - ((cfg.labels.take m).getD iIdx ("")).length) / 2 + k
      < s * cfg.bar_width + (s - 1) * cfg.bar_gap := by
    omega
  have hlb := lblBound ca.width cfg.bar_width cfg.bar_gap cfg.group_gap s M iIdx
    ((s * cfg.bar_width + (s - 1) * cfg.bar_gap
        - ((cfg.labels.take m).getD iIdx ("")).length) / 2 + k)
    hs hiM hc hM
  unfold Rect.containsXY
  refine ⟨?_, ?_, ?_, ?_⟩ <;>
    simp only [Rect.left, Rect.bottom] <;> omega

/-- C7 amended: with no wrapper, uniform group lengths, the fit
arithmetic in `u16` range with a nonzero divisor, and value labels that
fit (each series index carrying a nonzero value at most `height - 2`,
each formatted label no wider than the bar), every cell written by
render — whole-area style, bar glyphs, value labels and category
labels — lies within the target area. -/
theorem writes_in_area (cfg : Config) (area : Rect)
    (hb : cfg.block = none)
    (hs : 1 ≤ seriesCount cfg)
    (hu : ∀ g ∈ cfg.data, g.length = seriesCount cfg)
    (hnum : area.width + cfg.group_gap + cfg.bar_gap < 65536)
    (hper : (cfg.bar_width + cfg.bar_gap) * seriesCount cfg + cfg.group_gap < 65536)
    (hval : ∀ d ∈ cfg.data.take (maxIndex cfg area), ∀ t, t < d.length →
        d.getD t 0 ≠ 0 →
        t + 2 ≤ area.height ∧ (cfg.format (d.getD t 0)).length ≤ cfg.bar_width) :
    ∀ p ∈ allCells (render cfg area), area.containsXY p.1 p.2 := by
  intro p hp
  have hca : chartArea cfg area = area := by
    unfold chartArea
    rw [hb]
  have hpre : ∀ q ∈ allCells (preOps cfg area), area.containsXY q.1 q.2 := by
    intro q hq
    unfold preOps at hq
    rw [hb] at hq
    have hq' : q ∈ coordsIn area := by simpa [allCells, opCells] using hq
    exact coordsIn_mem area q hq'
  unfold render at hp
  rw [hca] at hp
  by_cases hcond : area.height < 2 ∨ cfg.data = []
  · rw [if_pos hcond] at hp
    exact hpre p hp
  · rw [if_neg hcond] at hp
    push_neg at hcond
    obtain ⟨hh2, hdne⟩ := hcond
    have hMle : maxIndex cfg area ≤ cfg.data.length := by
      unfold maxIndex visibleGroupCount
      exact Nat.min_le_right _ _
    have hMmul : maxIndex cfg area
        * ((cfg.bar_width + cfg.bar_gap) * seriesCount cfg + cfg.group_gap)
        ≤ area.width + cfg.group_gap + cfg.bar_gap := by
      have hq : maxIndex cfg area ≤ (area.width + cfg.group_gap + cfg.bar_gap)
          / ((cfg.bar_width + cfg.bar_gap) * seriesCount cfg + cfg.group_gap) := by
        unfold maxIndex visibleGroupCount
        rw [fitNumerator_eq _ _ _ hnum, perGroupWidth_eq _ _ _ _ hs hper]
        exact Nat.min_le_left _ _
      have h1 := Nat.mul_le_mul_right
        ((cfg.bar_width + cfg.bar_gap) * seriesCount cfg + cfg.group_gap) hq
      have h2 := Nat.div_mul_le_self (area.width + cfg.group_gap + cfg.bar_gap)
        ((cfg.bar_width + cfg.bar_gap) * seriesCount cfg + cfg.group_gap)
      omega
    rw [allCells_append, allCells_append, allCells_append] at hp
    rcases List.mem_append.mp hp with hp1 | hlbl
    · rcases List.mem_append.mp hp1 with hp2 | hvl
      · rcases List.mem_append.mp hp2 with hpr | hbar
        · exact hpre p hpr
        · unfold barOps at hbar
          refine barRows_mem cfg area (seriesCount cfg) (maxIndex cfg area)
            (area.height - 1) (shownData cfg area) ?_ ?_ (by omega) hMmul p hbar
          · intro d' hd'
            unfold shownData at hd'
            obtain ⟨d, hd, rfl⟩ := List.mem_map.mp hd'
            rw [List.length_map]
            exact hu d (List.take_subset _ _ hd)
          · unfold shownData
            rw [List.length_map, List.length_take]
            exact Nat.min_le_left _ _
      · exact valueOps_mem cfg area (seriesCount cfg) (maxIndex cfg area)
          hMmul hMle hu hval p hvl
    · exact labelOps_mem cfg area (seriesCount cfg) (maxIndex cfg area)
        (maxIndex cfg area) hs le_rfl hMmul (by omega) p hlbl

/-- C7 witness: the single-group, single-series default configuration
rendered into a 5 × 5 area writes only inside that area. -/
theorem writes_in_area_witness :
    (({ Config.default with data := [[1]] } : Config).block = none
     ∧ 1 ≤ seriesCount { Config.default with data := [[1]] })
    ∧ ∀ p ∈ allCells (render { Config.default with data := [[1]] } ⟨0, 0, 5, 5⟩),
        Rect.containsXY ⟨0, 0, 5, 5⟩ p.1 p.2 :=
  ⟨⟨rfl, by decide⟩,
   writes_in_area { Config.default with data := [[1]] } ⟨0, 0, 5, 5⟩
     rfl (by decide) (by decide) (by decide) (by decide) (by decide)⟩

end BarChart2
